import Mathlib

/-!
Verification of the chunking and result-merging core of the Invoice-Extractor
repository (src/pdf_extractor.py).

The segmenter chunk_text is embedded over List Char with a fuel parameter:
chunk_text returning some cs means the Python while-loop terminates and
produces the chunks cs; chunkLoop returning none for every fuel means the
loop never terminates.  All index arithmetic of the source is non-negative
on every run the fueled model completes (the cursor advances monotonically
there), so Nat subtraction is faithful to the source's int arithmetic.
-/

namespace PdfExtractor

/-- text[a:b] for a Python string represented as a list of characters
(slice with non-negative bounds, clamped to the length). -/
def sliceList (l : List Char) (a b : Nat) : List Char := (l.take b).drop a

/-- Python text.rfind(c, a, b): the largest index i with a ≤ i < b and
text[i] = c, as an Option (Python returns -1 when there is none). -/
def rfindIn (s : List Char) (c : Char) (a b : Nat) : Option Nat :=
  ((List.range b).filter (fun i => decide (a ≤ i) && decide (s[i]? = some c))).getLast?

/-- Python max over two rfind results, where none stands for -1. -/
def omax : Option Nat → Option Nat → Option Nat
  | none, o => o
  | some x, none => some x
  | some x, some y => some (max x y)

/-- break_point = max(text.rfind('.', end - overlap, end), text.rfind('\n', end - overlap, end))
with end = start + chunk_size (src/pdf_extractor.py lines 24-26). -/
def breakPt (text : List Char) (size overlap s : Nat) : Option Nat :=
  omax (rfindIn text '.' (s + size - overlap) (s + size))
       (rfindIn text '\n' (s + size - overlap) (s + size))

/-- The value of the cursor end after one iteration body of chunk_text
(src/pdf_extractor.py lines 19-30). -/
def chunkEnd (text : List Char) (size overlap s : Nat) : Nat :=
  if s + size < text.length then
    match breakPt text size overlap s with
    | some bp => bp + 1
    | none => s + size
  else text.length

/-- start = end - overlap if end < len(text) else end (src/pdf_extractor.py line 33). -/
def nextStart (text : List Char) (size overlap s : Nat) : Nat :=
  if chunkEnd text size overlap s < text.length then
    chunkEnd text size overlap s - overlap
  else chunkEnd text size overlap s

/-- The while-loop of chunk_text (src/pdf_extractor.py lines 17-33), with fuel:
some chunks when the loop exits within the given number of iterations. -/
def chunkLoop (text : List Char) (size overlap : Nat) : Nat → Nat → Option (List (List Char))
  | 0, _ => none
  | fuel + 1, s =>
    if s < text.length then
      (chunkLoop text size overlap fuel (nextStart text size overlap s)).map
        (fun rest => sliceList text s (chunkEnd text size overlap s) :: rest)
    else
      some []

/-- chunk_text(text, chunk_size, overlap) (src/pdf_extractor.py lines 10-35). -/
def chunk_text (text : List Char) (size overlap fuel : Nat) : Option (List (List Char)) :=
  if text.length ≤ size then some [text] else chunkLoop text size overlap fuel 0

/-- Concatenation of chunks with the first overlap characters stripped from
every chunk after the first (the round-trip reading of the spec). -/
def recon (overlap : Nat) : List (List Char) → List Char
  | [] => []
  | c :: rest => c ++ (rest.map (List.drop overlap)).flatten

/-- Position j of text holds a natural break character (period or newline). -/
def isTerm (text : List Char) (j : Nat) : Prop :=
  text[j]? = some '.' ∨ text[j]? = some '\n'

instance (text : List Char) (j : Nat) : Decidable (isTerm text j) := by
  unfold isTerm; infer_instance

/-- No natural break character occurs at a position in [a, b). -/
def windowFree (text : List Char) (a b : Nat) : Prop :=
  ∀ j, a ≤ j → j < b → ¬ isTerm text j

/-- Invariant carried from one loop iteration to the next: the character just
before the cursor is a break character (the previous iteration broke there),
or the whole overlap window ahead of the cursor is break-free (the previous
iteration was a hard cut). -/
def inv (text : List Char) (overlap s : Nat) : Prop :=
  (0 < overlap ∧ isTerm text (s + overlap - 1)) ∨ windowFree text s (s + overlap)

/-! ### The merger, value level

JSON-compatible values as parsed from the model responses.  Python dicts are
insertion-ordered association lists with unique keys; assigning to an existing
key replaces the value in place, assigning to a fresh key appends. -/

/-- A JSON-compatible Python value: scalar (number or string), list, or dict. -/
inductive JVal where
  | int : Int → JVal
  | str : String → JVal
  | list : List JVal → JVal
  | dict : List (String × JVal) → JVal

/-- d[k] lookup in an insertion-ordered mapping (association list). -/
def aGet {κ α : Type} [DecidableEq κ] : List (κ × α) → κ → Option α
  | [], _ => none
  | (k', v) :: rest, k => if k' = k then some v else aGet rest k

/-- d[k] = v assignment: replace in place when the key exists, append otherwise. -/
def aSet {κ α : Type} [DecidableEq κ] : List (κ × α) → κ → α → List (κ × α)
  | [], k, v => [(k, v)]
  | (k', w) :: rest, k, v =>
    if k' = k then (k', v) :: rest else (k', w) :: aSet rest k v

/-- Python m.update(d): assign every pair of d into m, in order. -/
def dUpdate {κ α : Type} [DecidableEq κ] (m d : List (κ × α)) : List (κ × α) :=
  d.foldl (fun acc kv => aSet acc kv.1 kv.2) m

/-- The value merged[key] holds after processing value against what the key
already held, following the if/elif chain of src/pdf_extractor.py lines 81-94:
nothing yet adopts the value; an incoming list extends an existing list or
wraps existing before its elements; an incoming dict updates an existing
dict (later sub-keys overwrite) or replaces a non-dict; an incoming scalar is
appended to an existing list or collected into a pair. -/
def newVal : Option JVal → JVal → JVal
  | none, v => v
  | some existing, JVal.list l =>
    match existing with
    | JVal.list m => JVal.list (m ++ l)
    | _ => JVal.list (existing :: l)
  | some existing, JVal.dict d =>
    match existing with
    | JVal.dict m => JVal.dict (dUpdate m d)
    | _ => JVal.dict d
  | some existing, v =>
    match existing with
    | JVal.list m => JVal.list (m ++ [v])
    | _ => JVal.list [existing, v]

/-- One (key, value) step of the accumulation loop of merge_json_results
(src/pdf_extractor.py lines 80-94), on values as trees.  Every branch of the
source leaves merged[key] holding newVal of the old binding and the incoming
value (the mutating extend / update / append included: they alter the bound
object in place, leaving its position in merged untouched); object identity
is treated separately in the heap model below. -/
def mergeOne (merged : List (String × JVal)) (kv : String × JVal) : List (String × JVal) :=
  aSet merged kv.1 (newVal (aGet merged kv.1) kv.2)

/-- merge_json_results(results) (src/pdf_extractor.py lines 76-96), with each
ChunkResult given by its ordered (key, value) pairs. -/
def merge_json_results (results : List (List (String × JVal))) : List (String × JVal) :=
  results.foldl (fun merged result => result.foldl mergeOne merged) []

/-- The values contributed under key k by the results, in order. -/
def contribs (k : String) (results : List (List (String × JVal))) : List JVal :=
  results.filterMap (fun r => aGet r k)

/-- The values contributed under key k by a flat list of (key, value) pairs. -/
def pContribs (k : String) (ps : List (String × JVal)) : List JVal :=
  ps.filterMap (fun kv => if kv.1 = k then some kv.2 else none)

/-- v is accounted for inside the sequence l in the sense of the spec:
a contributed list has all its elements in l, anything else is an element. -/
def contained (v : JVal) (l : List JVal) : Prop :=
  match v with
  | JVal.list xs => ∀ x ∈ xs, x ∈ l
  | _ => v ∈ l

/-- Whether a value is a mapping. -/
def isDict : JVal → Bool
  | JVal.dict _ => true
  | _ => false

/-- Whether a value is a sequence. -/
def isList : JVal → Bool
  | JVal.list _ => true
  | _ => false

/-- State of key k in the accumulator after the values in seen arrived under k:
absent, adopted as-is for a single contribution, and a collecting sequence
accounting for every contribution from the second one on. -/
def GoodAt (merged : List (String × JVal)) (k : String) : List JVal → Prop
  | [] => aGet merged k = none
  | [v] => aGet merged k = some v
  | v₁ :: v₂ :: rest =>
    ∃ l, aGet merged k = some (JVal.list l) ∧ ∀ v ∈ v₁ :: v₂ :: rest, contained v l

/-! ### The merger, heap level

Python lists and dicts are mutable objects with identity.  To state what the
source does to the objects its caller passed in, values are modelled as
addresses into a heap of objects, and the loop of merge_json_results is
replayed with the source's in-place extend / update / append as heap stores. -/

/-- An immediate (immutable) Python scalar. -/
inductive PVal where
  | int : Int → PVal
  | str : String → PVal
deriving DecidableEq

/-- A heap object: a scalar, a list of addresses, or a dict of addresses. -/
inductive PObj where
  | scalar : PVal → PObj
  | list : List Nat → PObj
  | dict : List (String × Nat) → PObj
deriving DecidableEq

/-- A heap: association of addresses to objects, plus the next fresh address. -/
structure Heap where
  objs : List (Nat × PObj)
  next : Nat
deriving DecidableEq

def Heap.get (h : Heap) (a : Nat) : Option PObj := aGet h.objs a

def Heap.set (h : Heap) (a : Nat) (o : PObj) : Heap := ⟨aSet h.objs a o, h.next⟩

def Heap.alloc (h : Heap) (o : PObj) : Heap × Nat :=
  (⟨h.objs ++ [(h.next, o)], h.next + 1⟩, h.next)

/-- One (key, value) step of merge_json_results on the heap
(src/pdf_extractor.py lines 80-94).  merged maps keys to addresses; extend,
update and append mutate the object already reachable from merged (which the
first contribution aliased straight from the input), while the replacement
cases bind merged[key] to a new or incoming object.  A dangling address
behaves like a scalar; inputs are always well-formed heaps. -/
def mergeStepH (st : Heap × List (String × Nat)) (kv : String × Nat) :
    Heap × List (String × Nat) :=
  match aGet st.2 kv.1 with
  | none => (st.1, aSet st.2 kv.1 kv.2)
  | some eaddr =>
    match st.1.get kv.2 with
    | some (PObj.list l) =>
      match st.1.get eaddr with
      | some (PObj.list m) => (st.1.set eaddr (PObj.list (m ++ l)), st.2)
      | _ =>
        ((st.1.alloc (PObj.list (eaddr :: l))).1,
          aSet st.2 kv.1 (st.1.alloc (PObj.list (eaddr :: l))).2)
    | some (PObj.dict d) =>
      match st.1.get eaddr with
      | some (PObj.dict m) => (st.1.set eaddr (PObj.dict (dUpdate m d)), st.2)
      | _ => (st.1, aSet st.2 kv.1 kv.2)
    | _ =>
      match st.1.get eaddr with
      | some (PObj.list m) => (st.1.set eaddr (PObj.list (m ++ [kv.2])), st.2)
      | _ =>
        ((st.1.alloc (PObj.list [eaddr, kv.2])).1,
          aSet st.2 kv.1 (st.1.alloc (PObj.list [eaddr, kv.2])).2)

/-- merge_json_results on the heap: each ChunkResult is its ordered list of
(key, address) pairs; the result is the final heap and the merged mapping. -/
def merge_json_resultsH (h : Heap) (results : List (List (String × Nat))) :
    Heap × List (String × Nat) :=
  results.foldl (fun st result => result.foldl mergeStepH st) (h, [])

/-- A concrete heap holding the value objects of two ChunkResults whose key
"a" is bound to the one-element list objects at addresses 2 and 5 (the Python
lists holding 1 and 2 respectively). -/
def exampleHeap : Heap :=
  ⟨[(1, PObj.scalar (PVal.int 1)), (2, PObj.list [1]),
    (4, PObj.scalar (PVal.int 2)), (5, PObj.list [4])], 6⟩

/-! ### The per-chunk processing error path -/

/-- process_chunk_with_openai (src/pdf_extractor.py lines 50-70).  The remote
generation call and the JSON parsing of its response are abstracted as an
oracle outcome: ok with the parsed mapping, or error with the message of the
exception raised anywhere in the try block.  The except branch (lines 69-70)
builds the marker mapping with keys "error" and "chunk". -/
def process_chunk (outcome : Except String (List (String × JVal))) (chunk : String) :
    List (String × JVal) :=
  match outcome with
  | Except.ok parsed => parsed
  | Except.error e =>
    [("error", JVal.str e), ("chunk", JVal.str (chunk.take 100 ++ "..."))]

/-! ### Association list lemmas -/

theorem aGet_aSet_self {κ α : Type} [DecidableEq κ] (d : List (κ × α)) (k : κ) (v : α) :
    aGet (aSet d k v) k = some v := by
  induction d with
  | nil => simp [aGet, aSet]
  | cons kv rest ih =>
    obtain ⟨k', w⟩ := kv
    by_cases h : k' = k
    · simp [aGet, aSet, h]
    · simp [aGet, aSet, h, ih]

theorem aGet_aSet_ne {κ α : Type} [DecidableEq κ] (d : List (κ × α)) (k k' : κ) (v : α)
    (hne : k ≠ k') : aGet (aSet d k v) k' = aGet d k' := by
  induction d with
  | nil => simp [aGet, aSet, hne]
  | cons kv rest ih =>
    obtain ⟨k₀, w⟩ := kv
    by_cases h : k₀ = k
    · subst h; simp [aGet, aSet, hne]
    · by_cases h' : k₀ = k'
      · subst h'; simp [aGet, aSet, h]
      · simp [aGet, aSet, h, h', ih]

/-! ### rfind lemmas -/

theorem pairwise_lt_getLast_max {l : List Nat} {i : Nat} (hp : l.Pairwise (· < ·))
    (hl : l.getLast? = some i) : ∀ j ∈ l, j ≤ i := by
  obtain ⟨ys, rfl⟩ := List.getLast?_eq_some_iff.mp hl
  intro j hj
  rcases List.mem_append.mp hj with hj | hj
  · exact Nat.le_of_lt ((List.pairwise_append.mp hp).2.2 j hj i (List.mem_singleton_self i))
  · rw [List.mem_singleton.mp hj]

theorem rfindIn_mem {s : List Char} {c : Char} {a b i : Nat}
    (h : rfindIn s c a b = some i) : a ≤ i ∧ i < b ∧ s[i]? = some c := by
  have hmem : i ∈ (List.range b).filter (fun i => decide (a ≤ i) && decide (s[i]? = some c)) := by
    obtain ⟨ys, hys⟩ := List.getLast?_eq_some_iff.mp h
    rw [hys]
    exact List.mem_append.mpr (Or.inr (List.mem_singleton_self i))
  obtain ⟨hr, hp⟩ := List.mem_filter.mp hmem
  simp only [Bool.and_eq_true, decide_eq_true_eq] at hp
  exact ⟨hp.1, List.mem_range.mp hr, hp.2⟩

theorem rfindIn_max {s : List Char} {c : Char} {a b i : Nat}
    (h : rfindIn s c a b = some i) :
    ∀ j, a ≤ j → j < b → s[j]? = some c → j ≤ i := by
  intro j hja hjb hjc
  have hmem : j ∈ (List.range b).filter (fun i => decide (a ≤ i) && decide (s[i]? = some c)) :=
    List.mem_filter.mpr ⟨List.mem_range.mpr hjb, by simp [hja, hjc]⟩
  exact pairwise_lt_getLast_max
    (List.Pairwise.sublist (List.filter_sublist _) (List.pairwise_lt_range b)) h j hmem

theorem rfindIn_none {s : List Char} {c : Char} {a b : Nat}
    (h : rfindIn s c a b = none) : ∀ j, a ≤ j → j < b → s[j]? ≠ some c := by
  intro j hja hjb hjc
  have hnil := List.getLast?_eq_none_iff.mp h
  have hmem : j ∈ (List.range b).filter (fun i => decide (a ≤ i) && decide (s[i]? = some c)) :=
    List.mem_filter.mpr ⟨List.mem_range.mpr hjb, by simp [hja, hjc]⟩
  rw [hnil] at hmem
  exact absurd hmem (List.not_mem_nil j)

/-! ### break point lemmas -/

theorem breakPt_mem {text : List Char} {size overlap s bp : Nat}
    (h : breakPt text size overlap s = some bp) :
    s + size - overlap ≤ bp ∧ bp < s + size ∧ isTerm text bp := by
  unfold breakPt omax at h
  rcases hp : rfindIn text '.' (s + size - overlap) (s + size) with _ | x <;>
    rcases hn : rfindIn text '\n' (s + size - overlap) (s + size) with _ | y <;>
      rw [hp, hn] at h
  · exact absurd h (by simp)
  · obtain ⟨h1, h2, h3⟩ := rfindIn_mem hn
    cases h; exact ⟨h1, h2, Or.inr h3⟩
  · obtain ⟨h1, h2, h3⟩ := rfindIn_mem hp
    cases h; exact ⟨h1, h2, Or.inl h3⟩
  · obtain ⟨hx1, hx2, hx3⟩ := rfindIn_mem hp
    obtain ⟨hy1, hy2, hy3⟩ := rfindIn_mem hn
    cases h
    rcases max_choice x y with hm | hm <;> rw [hm]
    · exact ⟨hx1, hx2, Or.inl hx3⟩
    · exact ⟨hy1, hy2, Or.inr hy3⟩

theorem breakPt_max {text : List Char} {size overlap s bp : Nat}
    (h : breakPt text size overlap s = some bp) :
    ∀ j, s + size - overlap ≤ j → j < s + size → isTerm text j → j ≤ bp := by
  intro j hja hjb hjt
  unfold breakPt omax at h
  rcases hp : rfindIn text '.' (s + size - overlap) (s + size) with _ | x <;>
    rcases hn : rfindIn text '\n' (s + size - overlap) (s + size) with _ | y <;>
      rw [hp, hn] at h
  · exact absurd h (by simp)
  · cases h
    rcases hjt with hc | hc
    · exact absurd hc (rfindIn_none hp j hja hjb)
    · exact rfindIn_max hn j hja hjb hc
  · cases h
    rcases hjt with hc | hc
    · exact rfindIn_max hp j hja hjb hc
    · exact absurd hc (rfindIn_none hn j hja hjb)
  · cases h
    rcases hjt with hc | hc
    · exact Nat.le_trans (rfindIn_max hp j hja hjb hc) (Nat.le_max_left x y)
    · exact Nat.le_trans (rfindIn_max hn j hja hjb hc) (Nat.le_max_right x y)

theorem breakPt_none {text : List Char} {size overlap s : Nat}
    (h : breakPt text size overlap s = none) :
    windowFree text (s + size - overlap) (s + size) := by
  intro j hja hjb hjt
  unfold breakPt omax at h
  rcases hp : rfindIn text '.' (s + size - overlap) (s + size) with _ | x <;>
    rcases hn : rfindIn text '\n' (s + size - overlap) (s + size) with _ | y <;>
      rw [hp, hn] at h
  · rcases hjt with hc | hc
    · exact absurd hc (rfindIn_none hp j hja hjb)
    · exact absurd hc (rfindIn_none hn j hja hjb)
  · exact absurd h (by simp)
  · exact absurd h (by simp)
  · exact absurd h (by simp)

/-! ### chunkEnd lemmas -/

theorem isTerm_lt_length {text : List Char} {j : Nat} (h : isTerm text j) : j < text.length := by
  rcases h with h | h <;>
    exact (List.getElem?_eq_some_iff.mp h).1

theorem chunkEnd_le_add (text : List Char) (size overlap s : Nat) :
    chunkEnd text size overlap s ≤ s + size := by
  unfold chunkEnd
  by_cases hb : s + size < text.length
  · rw [if_pos hb]
    rcases h : breakPt text size overlap s with _ | bp <;> dsimp only
    · exact Nat.le_refl _
    · exact (breakPt_mem h).2.1
  · rw [if_neg hb]
    exact Nat.le_of_not_lt hb

theorem chunkEnd_le_length (text : List Char) (size overlap s : Nat) :
    chunkEnd text size overlap s ≤ text.length := by
  unfold chunkEnd
  by_cases hb : s + size < text.length
  · rw [if_pos hb]
    rcases h : breakPt text size overlap s with _ | bp <;> dsimp only
    · exact Nat.le_of_lt hb
    · have := (breakPt_mem h).2.1
      omega
  · rw [if_neg hb]

theorem chunkEnd_lt_length (text : List Char) (size overlap s : Nat)
    (hb : s + size < text.length) : chunkEnd text size overlap s < text.length := by
  unfold chunkEnd
  rw [if_pos hb]
  rcases h : breakPt text size overlap s with _ | bp <;> dsimp only
  · exact hb
  · have := (breakPt_mem h).2.1
    omega

theorem chunkEnd_eq_length (text : List Char) (size overlap s : Nat)
    (hb : ¬ s + size < text.length) : chunkEnd text size overlap s = text.length := by
  unfold chunkEnd
  rw [if_neg hb]

/-- Under the carried invariant, the cursor end lands at least overlap
characters past the cursor start. -/
theorem chunkEnd_lower (text : List Char) (size overlap s : Nat)
    (hov : overlap < size) (hb : s + size < text.length)
    (hinv : inv text overlap s) : s + overlap ≤ chunkEnd text size overlap s := by
  unfold chunkEnd
  rw [if_pos hb]
  rcases h : breakPt text size overlap s with _ | bp <;> dsimp only
  · omega
  · obtain ⟨h1, h2, h3⟩ := breakPt_mem h
    by_cases hc : 2 * overlap ≤ size
    · omega
    · rcases hinv with ⟨hov0, hterm⟩ | hfree
      · have := breakPt_max h (s + overlap - 1) (by omega) (by omega) hterm
        omega
      · by_cases hlt : bp < s + overlap
        · exact absurd h3 (hfree bp (by omega) hlt)
        · omega

/-- The loop invariant re-establishes itself at the next cursor position. -/
theorem inv_nextStart (text : List Char) (size overlap s : Nat)
    (hb : s + size < text.length) (hov : overlap ≤ chunkEnd text size overlap s) :
    inv text overlap (chunkEnd text size overlap s - overlap) := by
  rcases Nat.eq_zero_or_pos overlap with hz | hpos
  · exact Or.inr (fun j h1 h2 => by omega)
  rcases h : breakPt text size overlap s with _ | bp
  · have he : chunkEnd text size overlap s = s + size := by
      unfold chunkEnd; rw [if_pos hb, h]
    rw [he] at hov ⊢
    refine Or.inr (fun j h1 h2 hterm => ?_)
    exact breakPt_none h j (by omega) (by omega) hterm
  · have he : chunkEnd text size overlap s = bp + 1 := by
      unfold chunkEnd; rw [if_pos hb, h]
    rw [he] at hov ⊢
    refine Or.inl ⟨hpos, ?_⟩
    have hbp : bp + 1 - overlap + overlap - 1 = bp := by omega
    rw [hbp]
    exact (breakPt_mem h).2.2

/-! ### chunkLoop lemmas -/

/-- If the cursor stops advancing, the loop never exits. -/
theorem chunkLoop_fix (text : List Char) (size overlap s : Nat)
    (hs : s < text.length) (hfix : nextStart text size overlap s = s) :
    ∀ fuel, chunkLoop text size overlap fuel s = none := by
  intro fuel
  induction fuel with
  | zero => rfl
  | succ n ih =>
    unfold chunkLoop
    rw [if_pos hs, hfix, ih]
    rfl

/-- Every chunk the loop appends is text[start:end] with end ≤ start + size,
hence of length at most size. -/
theorem chunkLoop_length (text : List Char) (size overlap : Nat) :
    ∀ fuel s cs, chunkLoop text size overlap fuel s = some cs →
      ∀ c ∈ cs, c.length ≤ size := by
  intro fuel
  induction fuel with
  | zero => intro s cs h; exact absurd h (by simp [chunkLoop])
  | succ n ih =>
    intro s cs h
    unfold chunkLoop at h
    by_cases hs : s < text.length
    · rw [if_pos hs] at h
      rcases Option.map_eq_some'.mp h with ⟨rest, hrest, hcs⟩
      subst hcs
      intro c hc
      rcases List.mem_cons.mp hc with hc | hc
      · subst hc
        have h1 : chunkEnd text size overlap s ≤ s + size := chunkEnd_le_add text size overlap s
        simp only [sliceList, List.length_drop, List.length_take]
        omega
      · exact ih _ rest hrest c hc
    · rw [if_neg hs] at h
      cases h
      intro c hc
      exact absurd hc (List.not_mem_nil c)

/-! ### Slice lemmas -/

theorem drop_slice (text : List Char) (ov s e : Nat) :
    List.drop ov (sliceList text s e) = sliceList text (s + ov) e := by
  unfold sliceList
  rw [List.drop_drop]

theorem slice_append_drop (text : List Char) (a e : Nat) (hae : a ≤ e)
    (hel : e ≤ text.length) :
    sliceList text a e ++ List.drop e text = List.drop a text := by
  conv_rhs => rw [← List.take_append_drop e text]
  rw [List.drop_append_eq_append_drop]
  unfold sliceList
  congr 1
  have h0 : a - (List.take e text).length = 0 := by
    rw [List.length_take]; omega
  rw [h0, List.drop_zero]

theorem sliceList_length_right (text : List Char) (a : Nat) :
    sliceList text a text.length = List.drop a text := by
  unfold sliceList
  rw [List.take_length]

/-! ### The round-trip invariant of the segmenter loop -/

/-- From a cursor position carrying the invariant, the chunks the loop still
produces, each stripped of its first overlap characters, concatenate to
exactly the rest of the text past the cursor's overlap window. -/
theorem chunkLoop_drop_flatten (text : List Char) (size overlap : Nat)
    (hov : overlap < size) :
    ∀ fuel s cs, inv text overlap s → chunkLoop text size overlap fuel s = some cs →
      (cs.map (List.drop overlap)).flatten = List.drop (s + overlap) text := by
  intro fuel
  induction fuel with
  | zero => intro s cs _ h; exact absurd h (by simp [chunkLoop])
  | succ n ih =>
    intro s cs hinv h
    unfold chunkLoop at h
    by_cases hs : s < text.length
    · rw [if_pos hs] at h
      rcases Option.map_eq_some'.mp h with ⟨rest, hrest, hcs⟩
      subst hcs
      by_cases hb : s + size < text.length
      · have hel : chunkEnd text size overlap s < text.length :=
          chunkEnd_lt_length text size overlap s hb
        have hlow : s + overlap ≤ chunkEnd text size overlap s :=
          chunkEnd_lower text size overlap s hov hb hinv
        have hnext : nextStart text size overlap s = chunkEnd text size overlap s - overlap := by
          unfold nextStart; rw [if_pos hel]
        rw [hnext] at hrest
        have hinv' : inv text overlap (chunkEnd text size overlap s - overlap) :=
          inv_nextStart text size overlap s hb (by omega)
        have hjoin := ih _ rest hinv' hrest
        have hsub : chunkEnd text size overlap s - overlap + overlap =
            chunkEnd text size overlap s := by omega
        rw [hsub] at hjoin
        simp only [List.map_cons, List.flatten_cons]
        rw [hjoin, drop_slice]
        exact slice_append_drop text (s + overlap) _ hlow (Nat.le_of_lt hel)
      · have he : chunkEnd text size overlap s = text.length :=
          chunkEnd_eq_length text size overlap s hb
        have hnext : nextStart text size overlap s = text.length := by
          unfold nextStart
          rw [he, if_neg (lt_irrefl _)]
        rw [hnext] at hrest
        have hrest0 : rest = [] := by
          cases n with
          | zero => exact absurd hrest (by simp [chunkLoop])
          | succ m =>
            unfold chunkLoop at hrest
            rw [if_neg (lt_irrefl _)] at hrest
            exact (Option.some.inj hrest).symm
        subst hrest0
        simp only [List.map_cons, List.map_nil, List.flatten_cons, List.flatten_nil,
          List.append_nil]
        rw [he, drop_slice, sliceList_length_right]
    · rw [if_neg hs] at h
      cases h
      simp only [List.map_nil, List.flatten_nil]
      exact (List.drop_eq_nil_of_le (by omega)).symm

/-! ### Claim theorems about the segmenter -/

/-- C1: the claim that chunk_text terminates for every text and every
size > 0, 0 ≤ overlap < size fails on the code: on text "a.cdefg" with
size 3 and overlap 2 the natural-boundary search moves the cut back to the
period at index 1, the cursor is reset to 2 - 2 = 0, and the loop repeats
the same iteration forever: no amount of fuel makes the loop exit. -/
theorem chunk_text_diverges_on_valid_input :
    ∀ fuel, chunk_text "a.cdefg".toList 3 2 fuel = none := by
  intro fuel
  unfold chunk_text
  rw [if_neg (by decide)]
  exact chunkLoop_fix "a.cdefg".toList 3 2 0 (by decide) (by decide) fuel

/-- C2: on every run of chunk_text that returns (terminates), with
size > 0, 0 ≤ overlap < size and a text longer than size, concatenating the
returned chunks with the first overlap characters stripped from every chunk
after the first yields exactly the original text. -/
theorem chunk_text_roundtrip (text : List Char) (size overlap fuel : Nat)
    (cs : List (List Char)) (hsize : 0 < size) (hov : overlap < size)
    (hlong : size < text.length)
    (hrun : chunk_text text size overlap fuel = some cs) :
    recon overlap cs = text := by
  unfold chunk_text at hrun
  rw [if_neg (by omega)] at hrun
  cases fuel with
  | zero => exact absurd hrun (by simp [chunkLoop])
  | succ n =>
    unfold chunkLoop at hrun
    rw [if_pos (by omega)] at hrun
    rcases Option.map_eq_some'.mp hrun with ⟨rest, hrest, hcs⟩
    subst hcs
    have hb : 0 + size < text.length := by omega
    have hel : chunkEnd text size overlap 0 < text.length :=
      chunkEnd_lt_length text size overlap 0 hb
    have hnext : nextStart text size overlap 0 = chunkEnd text size overlap 0 - overlap := by
      unfold nextStart; rw [if_pos hel]
    by_cases hov0 : chunkEnd text size overlap 0 ≤ overlap
    · have hfix : nextStart text size overlap 0 = 0 := by rw [hnext]; omega
      rw [hfix] at hrest
      rw [chunkLoop_fix text size overlap 0 (by omega) hfix n] at hrest
      exact absurd hrest (by simp)
    · push_neg at hov0
      rw [hnext] at hrest
      have hinv' : inv text overlap (chunkEnd text size overlap 0 - overlap) :=
        inv_nextStart text size overlap 0 hb (by omega)
      have hjoin := chunkLoop_drop_flatten text size overlap hov n _ rest hinv' hrest
      have hsub : chunkEnd text size overlap 0 - overlap + overlap =
          chunkEnd text size overlap 0 := by omega
      rw [hsub] at hjoin
      show sliceList text 0 (chunkEnd text size overlap 0) ++
        (rest.map (List.drop overlap)).flatten = text
      rw [hjoin]
      have hfin := slice_append_drop text 0 (chunkEnd text size overlap 0)
        (Nat.zero_le _) (chunkEnd_le_length text size overlap 0)
      rw [List.drop_zero] at hfin
      exact hfin

theorem chunk_text_roundtrip_witness :
    recon 2 ["ab.".toList, "b.de".toList, "de f".toList, " fgh".toList] =
      "ab.de fgh".toList :=
  chunk_text_roundtrip "ab.de fgh".toList 4 2 10
    ["ab.".toList, "b.de".toList, "de f".toList, " fgh".toList]
    (by decide) (by decide) (by decide) (by decide)

/-- C5: the claim that chunk_text fails fast with a descriptive error on
precondition-violating arguments fails on the code: the source performs no
validation at all (it contains no raise), and on violating inputs the loop
runs forever instead.  With overlap = size = 2 on "abcd" the cursor stays
at 0; with size 0 (the non-positive case expressible over Nat) and
overlap 0 on "ab" it also stays at 0. -/
theorem chunk_text_no_failfast :
    (∀ fuel, chunk_text "abcd".toList 2 2 fuel = none) ∧
    (∀ fuel, chunk_text "ab".toList 0 0 fuel = none) := by
  constructor
  · intro fuel
    unfold chunk_text
    rw [if_neg (by decide)]
    exact chunkLoop_fix "abcd".toList 2 2 0 (by decide) (by decide) fuel
  · intro fuel
    unfold chunk_text
    rw [if_neg (by decide)]
    exact chunkLoop_fix "ab".toList 0 0 0 (by decide) (by decide) fuel

/-- C9: with size > 0 and 0 ≤ overlap < size, every chunk a terminating run
of chunk_text returns has length at most size + overlap (in fact at most
size: the cut never lands past start + size). -/
theorem chunk_text_length_bound (text : List Char) (size overlap fuel : Nat)
    (cs : List (List Char)) (hsize : 0 < size) (hov : overlap < size)
    (hrun : chunk_text text size overlap fuel = some cs) :
    ∀ c ∈ cs, c.length ≤ size + overlap := by
  unfold chunk_text at hrun
  by_cases hle : text.length ≤ size
  · rw [if_pos hle] at hrun
    cases hrun
    intro c hc
    rw [List.mem_singleton.mp hc]
    omega
  · rw [if_neg hle] at hrun
    intro c hc
    exact Nat.le_trans (chunkLoop_length text size overlap fuel 0 cs hrun c hc)
      (Nat.le_add_right _ _)

theorem chunk_text_length_bound_witness : ("b.de".toList).length ≤ 4 + 2 :=
  chunk_text_length_bound "ab.de fgh".toList 4 2 10
    ["ab.".toList, "b.de".toList, "de f".toList, " fgh".toList]
    (by decide) (by decide) (by decide) "b.de".toList (by decide)

/-- C10: on the empty text, chunk_text returns a one-element sequence holding
the empty string, for every size and overlap (the len(text) ≤ chunk_size
early return of src/pdf_extractor.py lines 12-13). -/
theorem chunk_text_empty (size overlap fuel : Nat) :
    chunk_text [] size overlap fuel = some [[]] := by
  unfold chunk_text
  rw [if_pos (by simp)]

/-! ### Merger lemmas, value level -/

theorem contained_mono (v : JVal) (l l' : List JVal) (hsub : ∀ x ∈ l, x ∈ l')
    (hc : contained v l) : contained v l' := by
  cases v with
  | list xs => exact fun x hx => hsub x (hc x hx)
  | int i => exact hsub _ hc
  | str s => exact hsub _ hc
  | dict d => exact hsub _ hc

/-- Merging a non-dict incoming value into an occupied slot always yields a
sequence accounting for both the old binding and the incoming value. -/
theorem newVal_single (ex v : JVal) (hv : isDict v = false) :
    ∃ l, newVal (some ex) v = JVal.list l ∧ contained ex l ∧ contained v l := by
  cases v with
  | dict d => exact absurd hv (by simp [isDict])
  | list xs =>
    cases ex with
    | list m =>
      refine ⟨m ++ xs, rfl, ?_, ?_⟩
      · exact fun x hx => List.mem_append.mpr (Or.inl hx)
      · exact fun x hx => List.mem_append.mpr (Or.inr hx)
    | int i =>
      exact ⟨JVal.int i :: xs, rfl, List.mem_cons_self _ _,
        fun x hx => List.mem_cons_of_mem _ hx⟩
    | str t =>
      exact ⟨JVal.str t :: xs, rfl, List.mem_cons_self _ _,
        fun x hx => List.mem_cons_of_mem _ hx⟩
    | dict d =>
      exact ⟨JVal.dict d :: xs, rfl, List.mem_cons_self _ _,
        fun x hx => List.mem_cons_of_mem _ hx⟩
  | int i =>
    cases ex with
    | list m =>
      refine ⟨m ++ [JVal.int i], rfl, ?_, ?_⟩
      · exact fun x hx => List.mem_append.mpr (Or.inl hx)
      · exact List.mem_append.mpr (Or.inr (List.mem_singleton_self _))
    | int j =>
      exact ⟨[JVal.int j, JVal.int i], rfl, List.mem_cons_self _ _,
        List.mem_cons_of_mem _ (List.mem_cons_self _ _)⟩
    | str t =>
      exact ⟨[JVal.str t, JVal.int i], rfl, List.mem_cons_self _ _,
        List.mem_cons_of_mem _ (List.mem_cons_self _ _)⟩
    | dict d =>
      exact ⟨[JVal.dict d, JVal.int i], rfl, List.mem_cons_self _ _,
        List.mem_cons_of_mem _ (List.mem_cons_self _ _)⟩
  | str t =>
    cases ex with
    | list m =>
      refine ⟨m ++ [JVal.str t], rfl, ?_, ?_⟩
      · exact fun x hx => List.mem_append.mpr (Or.inl hx)
      · exact List.mem_append.mpr (Or.inr (List.mem_singleton_self _))
    | int j =>
      exact ⟨[JVal.int j, JVal.str t], rfl, List.mem_cons_self _ _,
        List.mem_cons_of_mem _ (List.mem_cons_self _ _)⟩
    | str u =>
      exact ⟨[JVal.str u, JVal.str t], rfl, List.mem_cons_self _ _,
        List.mem_cons_of_mem _ (List.mem_cons_self _ _)⟩
    | dict d =>
      exact ⟨[JVal.dict d, JVal.str t], rfl, List.mem_cons_self _ _,
        List.mem_cons_of_mem _ (List.mem_cons_self _ _)⟩

theorem newVal_none (v : JVal) : newVal none v = v := by
  cases v <;> rfl

theorem mergeOne_aGet_self (merged : List (String × JVal)) (k : String) (v : JVal) :
    aGet (mergeOne merged (k, v)) k = some (newVal (aGet merged k) v) :=
  aGet_aSet_self merged k _

theorem mergeOne_aGet_ne (merged : List (String × JVal)) (kv : String × JVal) (k : String)
    (hne : kv.1 ≠ k) : aGet (mergeOne merged kv) k = aGet merged k :=
  aGet_aSet_ne merged kv.1 k _ hne

theorem goodAt_step (merged : List (String × JVal)) (k : String) (seen : List JVal)
    (v : JVal) (hgood : GoodAt merged k seen) (hv : seen = [] ∨ isDict v = false) :
    GoodAt (mergeOne merged (k, v)) k (seen ++ [v]) := by
  match seen with
  | [] =>
    show aGet (mergeOne merged (k, v)) k = some v
    rw [mergeOne_aGet_self, hgood, newVal_none]
  | [u] =>
    have hvnd : isDict v = false := by
      rcases hv with h | h
      · exact absurd h (by simp)
      · exact h
    obtain ⟨l, hl, hexl, hvl⟩ := newVal_single u v hvnd
    refine ⟨l, ?_, ?_⟩
    · rw [mergeOne_aGet_self, hgood, hl]
    · intro w hw
      rcases List.mem_cons.mp hw with hw | hw
      · rw [hw]; exact hexl
      · rw [List.mem_singleton.mp hw]; exact hvl
  | u₁ :: u₂ :: rest =>
    have hvnd : isDict v = false := by
      rcases hv with h | h
      · exact absurd h (by simp)
      · exact h
    obtain ⟨m, hm, hall⟩ := hgood
    obtain ⟨l, hl, hexl, hvl⟩ := newVal_single (JVal.list m) v hvnd
    refine ⟨l, ?_, ?_⟩
    · rw [mergeOne_aGet_self, hm, hl]
    · intro w hw
      have hw2 : w ∈ (u₁ :: u₂ :: rest) ++ [v] := by simpa using hw
      rcases List.mem_append.mp hw2 with hw | hw
      · exact contained_mono w m l hexl (hall w hw)
      · rw [List.mem_singleton.mp hw]; exact hvl

theorem goodAt_congr (m₁ m₂ : List (String × JVal)) (k : String) (seen : List JVal)
    (heq : aGet m₁ k = aGet m₂ k) (hgood : GoodAt m₁ k seen) : GoodAt m₂ k seen := by
  match seen with
  | [] => exact show aGet m₂ k = none from heq.symm.trans hgood
  | [u] => exact show aGet m₂ k = some u from heq.symm.trans hgood
  | u₁ :: u₂ :: rest =>
    obtain ⟨l, hl, hall⟩ := hgood
    exact ⟨l, heq ▸ hl, hall⟩

/-- Folding the merge step over a flat pair list extends the GoodAt state by
exactly the values contributed under the key, provided no contribution after
the very first one is a dict. -/
theorem goodAt_fold (k : String) :
    ∀ (ps : List (String × JVal)) (merged : List (String × JVal)) (seen : List JVal),
      GoodAt merged k seen →
      (∀ v ∈ (seen ++ pContribs k ps).tail, isDict v = false) →
      GoodAt (ps.foldl mergeOne merged) k (seen ++ pContribs k ps) := by
  intro ps
  induction ps with
  | nil =>
    intro merged seen hgood htail
    simpa [pContribs] using hgood
  | cons kv ps ih =>
    intro merged seen hgood htail
    obtain ⟨k₁, v⟩ := kv
    by_cases hk : k₁ = k
    · subst hk
      have hctr : pContribs k₁ ((k₁, v) :: ps) = v :: pContribs k₁ ps := by
        simp [pContribs]
      rw [hctr] at htail ⊢
      have hstep : GoodAt (mergeOne merged (k₁, v)) k₁ (seen ++ [v]) := by
        refine goodAt_step merged k₁ seen v hgood ?_
        cases seen with
        | nil => exact Or.inl rfl
        | cons s₀ srest =>
          refine Or.inr (htail v ?_)
          simp
      have hassoc : seen ++ v :: pContribs k₁ ps = (seen ++ [v]) ++ pContribs k₁ ps := by
        simp
      rw [hassoc]
      refine ih (mergeOne merged (k₁, v)) (seen ++ [v]) hstep ?_
      intro w hw
      refine htail w ?_
      rw [hassoc]
      exact hw
    · have hctr : pContribs k ((k₁, v) :: ps) = pContribs k ps := by
        simp [pContribs, hk]
      rw [hctr] at htail ⊢
      exact ih (mergeOne merged (k₁, v)) seen
        (goodAt_congr merged _ k seen (mergeOne_aGet_ne merged (k₁, v) k hk).symm hgood) htail

/-- The nested result-then-pair loop of merge_json_results is the flat fold
over the concatenation of all the pair lists. -/
theorem merge_eq_fold_flatten (results : List (List (String × JVal))) :
    merge_json_results results = results.flatten.foldl mergeOne [] := by
  unfold merge_json_results
  generalize [] = m
  induction results generalizing m with
  | nil => rfl
  | cons r rs ih =>
    simp only [List.foldl_cons, List.flatten_cons, List.foldl_append]
    exact ih _

theorem pContribs_append (k : String) (ps qs : List (String × JVal)) :
    pContribs k (ps ++ qs) = pContribs k ps ++ pContribs k qs := by
  simp [pContribs]

theorem pContribs_of_not_mem (k : String) (ps : List (String × JVal))
    (h : k ∉ ps.map Prod.fst) : pContribs k ps = [] := by
  induction ps with
  | nil => rfl
  | cons kv ps ih =>
    obtain ⟨k₁, v⟩ := kv
    simp only [List.map_cons, List.mem_cons] at h
    push_neg at h
    simp only [pContribs, List.filterMap_cons]
    rw [if_neg (fun hc => h.1 hc.symm)]
    exact ih h.2

/-- On a mapping with no repeated keys, the contributions under k are the
lookup of k, as a zero- or one-element list. -/
theorem pContribs_eq_aGet (k : String) (ps : List (String × JVal))
    (hnd : (ps.map Prod.fst).Nodup) : pContribs k ps = (aGet ps k).toList := by
  induction ps with
  | nil => rfl
  | cons kv ps ih =>
    obtain ⟨k₁, v⟩ := kv
    simp only [List.map_cons, List.nodup_cons] at hnd
    by_cases hk : k₁ = k
    · subst hk
      simp only [pContribs, List.filterMap_cons, if_pos rfl, aGet, if_pos rfl]
      have : pContribs k₁ ps = [] := pContribs_of_not_mem k₁ ps hnd.1
      rw [show ps.filterMap (fun kv => if kv.1 = k₁ then some kv.2 else none) =
        pContribs k₁ ps from rfl, this]
      rfl
    · simp only [pContribs, List.filterMap_cons, if_neg hk, aGet, if_neg hk]
      exact ih hnd.2

/-- Contributions of the flattened pair lists agree with the per-result
contributions when each result has no repeated keys. -/
theorem pContribs_flatten (k : String) (results : List (List (String × JVal)))
    (hnd : ∀ r ∈ results, (r.map Prod.fst).Nodup) :
    pContribs k results.flatten = contribs k results := by
  induction results with
  | nil => rfl
  | cons r rs ih =>
    simp only [List.flatten_cons, pContribs_append]
    rw [pContribs_eq_aGet k r (hnd r (by simp))]
    rw [ih (fun r hr => hnd r (List.mem_cons_of_mem _ hr))]
    simp only [contribs, List.filterMap_cons]
    cases aGet r k <;> rfl

/-! ### Heap-level merger lemmas -/

theorem mergeH_eq_fold_flatten (h : Heap) (results : List (List (String × Nat))) :
    merge_json_resultsH h results = results.flatten.foldl mergeStepH (h, []) := by
  unfold merge_json_resultsH
  generalize (h, ([] : List (String × Nat))) = st
  induction results generalizing st with
  | nil => rfl
  | cons r rs ih =>
    simp only [List.foldl_cons, List.flatten_cons, List.foldl_append]
    exact ih _

/-- As long as every processed key is fresh, the merge step only binds keys in
merged and leaves the heap untouched. -/
theorem foldH_frame :
    ∀ (ps : List (String × Nat)) (st : Heap × List (String × Nat)),
      (ps.map Prod.fst).Nodup →
      (∀ kv ∈ ps, aGet st.2 kv.1 = none) →
      (ps.foldl mergeStepH st).1 = st.1 := by
  intro ps
  induction ps with
  | nil => intro st _ _; rfl
  | cons kv ps ih =>
    intro st hnd hfresh
    obtain ⟨k, v⟩ := kv
    simp only [List.map_cons, List.nodup_cons] at hnd
    have hk : aGet st.2 k = none := hfresh (k, v) (List.mem_cons_self _ _)
    have hstep : mergeStepH st (k, v) = (st.1, aSet st.2 k v) := by
      unfold mergeStepH
      rw [hk]
    rw [List.foldl_cons, hstep]
    refine ih (st.1, aSet st.2 k v) hnd.2 ?_
    intro kv' hkv'
    have hne : kv'.1 ≠ k := by
      intro hc
      exact hnd.1 (hc ▸ List.mem_map_of_mem Prod.fst hkv')
    show aGet (aSet st.2 k v) kv'.1 = none
    rw [aGet_aSet_ne st.2 k kv'.1 v (fun hc => hne hc.symm)]
    exact hfresh kv' (List.mem_cons_of_mem _ hkv')

/-! ### dUpdate lookup -/

theorem aGet_eq_none_of_not_mem {κ α : Type} [DecidableEq κ]
    (ps : List (κ × α)) (k : κ) (h : k ∉ ps.map Prod.fst) : aGet ps k = none := by
  induction ps with
  | nil => rfl
  | cons kv ps ih =>
    obtain ⟨k₁, v⟩ := kv
    simp only [List.map_cons, List.mem_cons] at h
    push_neg at h
    show (if k₁ = k then some v else aGet ps k) = none
    rw [if_neg (fun hc => h.1 hc.symm)]
    exact ih h.2

/-- Python m.update(d) lookup: a key present in d takes d's (wholesale) value,
anything else keeps m's value — the one-level shallow merge. -/
theorem aGet_dUpdate {κ α : Type} [DecidableEq κ] :
    ∀ (d m : List (κ × α)) (x : κ), (d.map Prod.fst).Nodup →
      aGet (dUpdate m d) x = (aGet d x).elim (aGet m x) some := by
  intro d
  induction d with
  | nil => intro m x _; rfl
  | cons kv d ih =>
    intro m x hnd
    obtain ⟨k₁, v⟩ := kv
    simp only [List.map_cons, List.nodup_cons] at hnd
    have hfold : dUpdate m ((k₁, v) :: d) = dUpdate (aSet m k₁ v) d := rfl
    rw [hfold, ih (aSet m k₁ v) x hnd.2]
    by_cases hx : k₁ = x
    · subst hx
      rw [aGet_eq_none_of_not_mem d k₁ hnd.1]
      show aGet (aSet m k₁ v) k₁ = (aGet ((k₁, v) :: d) k₁).elim (aGet m k₁) some
      rw [aGet_aSet_self]
      show some v = (if k₁ = k₁ then some v else aGet d k₁).elim (aGet m k₁) some
      rw [if_pos rfl]
      rfl
    · rw [aGet_aSet_ne m k₁ x v hx]
      show (aGet d x).elim (aGet m x) some = (if k₁ = x then some v else aGet d x).elim (aGet m x) some
      rw [if_neg hx]

/-! ### Claim theorems about the merger -/

/-- C3 counterexample: the claim that a colliding key always merges to a
sequence containing every contributed value fails on the code: when the
second contribution under "a" is a dict and the first a scalar, the dict
branch replaces the scalar outright, so the merged value is a dict, not a
sequence, and the contributed 1 is silently dropped. -/
theorem merge_json_results_drops_on_dict_collision :
    ¬ (∀ k : String,
        2 ≤ (contribs k [[("a", JVal.int 1)], [("a", JVal.dict [("x", JVal.int 2)])]]).length →
        ∃ l, aGet (merge_json_results
              [[("a", JVal.int 1)], [("a", JVal.dict [("x", JVal.int 2)])]]) k
            = some (JVal.list l) ∧
          ∀ v ∈ contribs k [[("a", JVal.int 1)], [("a", JVal.dict [("x", JVal.int 2)])]],
            contained v l) := by
  intro h
  obtain ⟨l, hl, _⟩ := h "a" (by decide)
  have hm : aGet (merge_json_results
      [[("a", JVal.int 1)], [("a", JVal.dict [("x", JVal.int 2)])]]) "a"
      = some (JVal.dict [("x", JVal.int 2)]) := rfl
  rw [hm] at hl
  exact JVal.noConfusion (Option.some.inj hl)

/-- C3 amended: for every key hit by at least two ChunkResults (each a
mapping without repeated keys), provided no contribution under the key after
the first one is itself a mapping, the merged value is a sequence containing
every contributed value: contributed lists have all their elements in it and
every other contribution is an element of it.  (Mapping collisions instead
shallow-merge or replace, and may drop data, as the counterexample shows.) -/
theorem merge_json_results_collects_nondict (results : List (List (String × JVal)))
    (k : String) (hnd : ∀ r ∈ results, (r.map Prod.fst).Nodup)
    (hcount : 2 ≤ (contribs k results).length)
    (htail : ∀ v ∈ (contribs k results).tail, isDict v = false) :
    ∃ l, aGet (merge_json_results results) k = some (JVal.list l) ∧
      ∀ v ∈ contribs k results, contained v l := by
  rw [merge_eq_fold_flatten]
  have hpc : pContribs k results.flatten = contribs k results := pContribs_flatten k results hnd
  have h0 : GoodAt ([] : List (String × JVal)) k [] := rfl
  have htail' : ∀ v ∈ (([] : List JVal) ++ pContribs k results.flatten).tail,
      isDict v = false := by
    rw [List.nil_append, hpc]; exact htail
  have hg := goodAt_fold k results.flatten [] [] h0 htail'
  rw [List.nil_append, hpc] at hg
  rcases hc : contribs k results with _ | ⟨v₁, rest₁⟩
  · rw [hc] at hcount; exact absurd hcount (by simp)
  rcases rest₁ with _ | ⟨v₂, rest⟩
  · rw [hc] at hcount; exact absurd hcount (by simp)
  rw [hc] at hg
  exact hg

theorem merge_json_results_collects_nondict_witness :
    ∃ l, aGet (merge_json_results [[("a", JVal.int 1)], [("a", JVal.int 2)]]) "a"
        = some (JVal.list l) ∧
      ∀ v ∈ contribs "a" [[("a", JVal.int 1)], [("a", JVal.int 2)]], contained v l :=
  merge_json_results_collects_nondict [[("a", JVal.int 1)], [("a", JVal.int 2)]] "a"
    (by decide) (by decide) (by decide)

/-- C7: scalar and sequence collisions combine as specified — an incoming
list extends an existing list, or wraps the existing value before its own
elements; an incoming scalar is appended to an existing list, or collected
after the existing value into a fresh pair; in particular the two
merge examples of the spec compute as stated. -/
theorem merge_scalar_list_collision_rules :
    merge_json_results [[("a", JVal.int 1)], [("a", JVal.int 2)]]
        = [("a", JVal.list [JVal.int 1, JVal.int 2])] ∧
    merge_json_results
        [[("a", JVal.list [JVal.int 1])], [("a", JVal.list [JVal.int 2, JVal.int 3])]]
        = [("a", JVal.list [JVal.int 1, JVal.int 2, JVal.int 3])] ∧
    (∀ (merged : List (String × JVal)) (k : String) (ex : JVal) (xs : List JVal),
      aGet merged k = some ex →
      mergeOne merged (k, JVal.list xs) = aSet merged k
        (match ex with
         | JVal.list m => JVal.list (m ++ xs)
         | _ => JVal.list (ex :: xs))) ∧
    (∀ (merged : List (String × JVal)) (k : String) (ex v : JVal),
      aGet merged k = some ex → isList v = false → isDict v = false →
      mergeOne merged (k, v) = aSet merged k
        (match ex with
         | JVal.list m => JVal.list (m ++ [v])
         | _ => JVal.list [ex, v])) := by
  refine ⟨rfl, rfl, ?_, ?_⟩
  · intro merged k ex xs hex
    show aSet merged k (newVal (aGet merged k) (JVal.list xs)) = _
    rw [hex]
    cases ex <;> rfl
  · intro merged k ex v hex hvl hvd
    show aSet merged k (newVal (aGet merged k) v) = _
    rw [hex]
    cases v with
    | list xs => exact absurd hvl (by simp [isList])
    | dict d => exact absurd hvd (by simp [isDict])
    | int i => cases ex <;> rfl
    | str t => cases ex <;> rfl

theorem merge_scalar_list_collision_rules_witness :
    mergeOne [("a", JVal.int 5)] ("a", JVal.list [JVal.int 7])
        = aSet [("a", JVal.int 5)] "a" (JVal.list [JVal.int 5, JVal.int 7]) ∧
    mergeOne [("a", JVal.int 5)] ("a", JVal.int 9)
        = aSet [("a", JVal.int 5)] "a" (JVal.list [JVal.int 5, JVal.int 9]) := by
  constructor
  · exact merge_scalar_list_collision_rules.2.2.1 [("a", JVal.int 5)] "a"
      (JVal.int 5) [JVal.int 7] rfl
  · exact merge_scalar_list_collision_rules.2.2.2 [("a", JVal.int 5)] "a"
      (JVal.int 5) (JVal.int 9) rfl rfl rfl

/-- C8: dict collisions combine as specified — an incoming dict shallow-merges
into an existing dict one level only, later same-named sub-keys overwriting
(the dUpdate lookup rule), and replaces an existing non-dict outright; the
spec's dict merge example computes as stated. -/
theorem merge_dict_collision_rules :
    merge_json_results
        [[("a", JVal.dict [("x", JVal.int 1)])], [("a", JVal.dict [("y", JVal.int 2)])]]
        = [("a", JVal.dict [("x", JVal.int 1), ("y", JVal.int 2)])] ∧
    (∀ (merged : List (String × JVal)) (k : String) (ex : JVal) (d : List (String × JVal)),
      aGet merged k = some ex →
      mergeOne merged (k, JVal.dict d) = aSet merged k
        (match ex with
         | JVal.dict m => JVal.dict (dUpdate m d)
         | _ => JVal.dict d)) ∧
    (∀ (m d : List (String × JVal)) (x : String), (d.map Prod.fst).Nodup →
      aGet (dUpdate m d) x = (aGet d x).elim (aGet m x) some) := by
  refine ⟨rfl, ?_, ?_⟩
  · intro merged k ex d hex
    show aSet merged k (newVal (aGet merged k) (JVal.dict d)) = _
    rw [hex]
    cases ex <;> rfl
  · intro m d x hnd
    exact aGet_dUpdate d m x hnd

theorem merge_dict_collision_rules_witness :
    mergeOne [("a", JVal.dict [("x", JVal.int 1)])] ("a", JVal.dict [("x", JVal.int 3)])
        = aSet [("a", JVal.dict [("x", JVal.int 1)])] "a"
            (JVal.dict (dUpdate [("x", JVal.int 1)] [("x", JVal.int 3)])) ∧
    aGet (dUpdate [("x", JVal.int 1)] [("x", JVal.int 3)]) "x"
        = (aGet [("x", JVal.int 3)] "x").elim (aGet [("x", JVal.int 1)] "x") some := by
  constructor
  · exact merge_dict_collision_rules.2.1 [("a", JVal.dict [("x", JVal.int 1)])] "a"
      (JVal.dict [("x", JVal.int 1)]) [("x", JVal.int 3)] rfl
  · exact merge_dict_collision_rules.2.2 [("x", JVal.int 1)] [("x", JVal.int 3)] "x"
      (by decide)

/-- C4 counterexample: the claim that merge_json_results never mutates its
input fails on the code: merging two ChunkResults that both bind "a" to a
list makes merged["a"].extend(value) mutate in place the very list object the
first ChunkResult passed in — on exampleHeap, the input list at address 2
changes from holding one element to holding two. -/
theorem merge_json_resultsH_mutates_input :
    exampleHeap.get 2 = some (PObj.list [1]) ∧
    (merge_json_resultsH exampleHeap [[("a", 2)], [("a", 5)]]).1.get 2
      = some (PObj.list [1, 4]) ∧
    (merge_json_resultsH exampleHeap [[("a", 2)], [("a", 5)]]).1.get 2
      ≠ exampleHeap.get 2 := by
  refine ⟨by decide, by decide, by decide⟩

/-- C4 amended: merge_json_results is not side-effect-free in general — on a
key collision it can mutate in place the input list or dict adopted from the
first contribution (extend / update / append alias input objects).  In the
collision-free case it is side-effect-free: when no key occurs twice across
the input mappings, the final heap is the input heap. -/
theorem merge_json_resultsH_frame (h : Heap) (results : List (List (String × Nat)))
    (hnd : ((results.flatten).map Prod.fst).Nodup) :
    (merge_json_resultsH h results).1 = h := by
  rw [mergeH_eq_fold_flatten]
  exact foldH_frame results.flatten (h, []) hnd (fun kv _ => rfl)

theorem merge_json_resultsH_frame_witness :
    (merge_json_resultsH exampleHeap [[("a", 2)], [("b", 5)]]).1 = exampleHeap :=
  merge_json_resultsH_frame exampleHeap [[("a", 2)], [("b", 5)]] (by decide)

/-! ### Claim theorems about the error marker -/

/-- C6 counterexample: the claim that the error marker's keys are exactly
"error" and "chunk_preview" fails on the code: the except branch of
process_chunk_with_openai builds its marker with keys "error" and "chunk". -/
theorem process_chunk_error_keys_not_preview :
    (process_chunk (Except.error "boom") "hello").map Prod.fst = ["error", "chunk"] ∧
    (process_chunk (Except.error "boom") "hello").map Prod.fst ≠ ["error", "chunk_preview"] := by
  exact ⟨rfl, by decide⟩

/-- C6 amended: whenever generation or JSON parsing fails for a chunk with
message e, the ChunkResult for that slot is exactly the mapping binding
"error" to e and "chunk" to the first 100 characters of the chunk followed by
an ellipsis, so callers detect failed chunks via those two keys. -/
theorem process_chunk_error_marker (e chunk : String) :
    process_chunk (Except.error e) chunk
      = [("error", JVal.str e), ("chunk", JVal.str (chunk.take 100 ++ "..."))] := rfl

end PdfExtractor
